import Mathlib

/-!
Verification of the sortTF block/attribute canonicalization engine.

We shallowly embed the Go code of `utils/sortingutil/sortingutil.go`,
`utils/parsingutil/parsingutil.go` and `utils/formattingutil/formattingutil.go`
into Lean.  An `hclwrite` body is modelled as an ordered list of items, each
item being either an attribute (name plus opaque expression text) or a nested
block; a block carries its raw type keyword, its labels and its body.
-/

namespace SortTF

open List

mutual
/-- A parsed HCL block: its raw type keyword, its labels, and its ordered
body, mirroring `hclwrite.Block`. -/
inductive HBlock : Type where
  | mk (type : String) (labels : List String) (body : List BodyItem)

/-- A body item of an HCL block: either an attribute `name = expr` (the
expression is kept as opaque text, never interpreted) or a nested block.
Mirrors the ordered node list of an `hclwrite.Body`. -/
inductive BodyItem : Type where
  | attr (name : String) (expr : String)
  | block (b : HBlock)
end

/-- The raw type keyword of a block (`hclwrite.Block.Type()`). -/
def HBlock.type : HBlock → String
  | .mk t _ _ => t

/-- The labels of a block (`hclwrite.Block.Labels()`). -/
def HBlock.labels : HBlock → List String
  | .mk _ l _ => l

/-- The ordered body of a block. -/
def HBlock.body : HBlock → List BodyItem
  | .mk _ _ b => b

/-- `BlockType` from `sortingutil.go`: the classified type of a Terraform
block. -/
inductive BlockType : Type where
  | terraform
  | provider
  | variable
  | output
  | resource
  | data
  | module
  | locals
  | backend
  | other
deriving DecidableEq

/-- ASCII lowercasing of a string, modelling `strings.ToLower` on the
keywords that occur here (character-wise `Char.toLower`). -/
def toLowerStr (s : String) : String :=
  ⟨s.data.map Char.toLower⟩

/-- `getBlockType` from `sortingutil.go`: determines the type of a block
based on its (lowercased) name; unknown keywords map to `other`. -/
def getBlockType (name : String) : BlockType :=
  match toLowerStr name with
  | "terraform" => .terraform
  | "provider" => .provider
  | "variable" => .variable
  | "output" => .output
  | "resource" => .resource
  | "data" => .data
  | "module" => .module
  | "locals" => .locals
  | "backend" => .backend
  | _ => .other

/-- `blockTypeOrder` from `sortingutil.go`: the fixed rank in which block
types should appear. -/
def blockTypeOrder : BlockType → Nat
  | .terraform => 1
  | .provider => 2
  | .variable => 3
  | .locals => 4
  | .data => 5
  | .resource => 6
  | .module => 7
  | .output => 8
  | .backend => 9
  | .other => 10

/-- `compareLabels` from `sortingutil.go`: lexicographic comparison of two
label lists; on a common prefix the shorter list comes first. -/
def compareLabels : List String → List String → Bool
  | [], [] => false
  | [], _ :: _ => true
  | _ :: _, [] => false
  | a :: as, b :: bs => if a ≠ b then decide (a < b) else compareLabels as bs

/-- The sort key of a block: its rank together with its labels. -/
def blockKey (b : HBlock) : Nat × List String :=
  (blockTypeOrder (getBlockType b.type), b.labels)

/-- The `less` closure passed to `sort.SliceStable` in `sortBlocks` (and in
`sortBlockAttributes` for nested blocks): first compare ranks, then labels. -/
def blockLess (b1 b2 : HBlock) : Bool :=
  let o1 := blockTypeOrder (getBlockType b1.type)
  let o2 := blockTypeOrder (getBlockType b2.type)
  if o1 ≠ o2 then decide (o1 < o2) else compareLabels b1.labels b2.labels

/-- The non-strict order corresponding to `blockLess`; `sort.SliceStable`
with `blockLess` produces the unique stable ordering w.r.t. this relation. -/
def blockLE (b1 b2 : HBlock) : Prop :=
  blockLess b2 b1 = false

instance : DecidableRel blockLE := fun a b => by
  unfold blockLE; infer_instance

/-- Stable sort of a block list by `blockLess`, modelling
`sort.SliceStable(blocks, ...)`. -/
def sortBlocksL (l : List HBlock) : List HBlock :=
  l.insertionSort blockLE

/-- The attributes of a body, in body order (`hclwrite.Body` node order). -/
def bodyAttrs : List BodyItem → List (String × String)
  | [] => []
  | .attr n e :: rest => (n, e) :: bodyAttrs rest
  | .block _ :: rest => bodyAttrs rest

/-- The nested blocks of a body, in body order (`hclwrite.Body.Blocks()`). -/
def bodyBlocks : List BodyItem → List HBlock
  | [] => []
  | .attr _ _ :: rest => bodyBlocks rest
  | .block b :: rest => b :: bodyBlocks rest

/-- The key set of the Go attribute map `body.Attributes()`: the distinct
attribute names, in first-occurrence order (map keys are unique; the
iteration order of the map is arbitrary and is modelled separately). -/
def keysOf (a : List (String × String)) : List String :=
  (a.map Prod.fst).dedup

/-- The value stored in the Go map `body.Attributes()` for name `n`:
map construction iterates the body in order, so a later entry wins. -/
def attrValue (a : List (String × String)) (n : String) : String :=
  (((a.filter (fun p => p.1 = n)).getLast?).map Prod.snd).getD ""

/-- Sorting a list of strings, modelling `sort.Strings`. -/
def sortStrings (l : List String) : List String :=
  l.insertionSort (· ≤ ·)

/-- The attribute-reordering core of `sortBlockAttributes`, parameterised by
`names`, the order in which Go's (unordered) map iteration enumerates the
attribute names.  The body first has every attribute removed; then, if
`for_each` is present it is re-set first; the remaining names are sorted
with `sort.Strings` and re-set in that order. -/
def canonAttrsWith (names : List String) (a : List (String × String)) :
    List (String × String) :=
  (if "for_each" ∈ names then [("for_each", attrValue a "for_each")] else [])
    ++ (sortStrings (names.filter (fun n => n ≠ "for_each"))).map
        (fun n => (n, attrValue a n))

/-- The canonical attribute order produced by `sortBlockAttributes`
(independent of the map iteration order, as proved below). -/
def canonAttrs (a : List (String × String)) : List (String × String) :=
  canonAttrsWith (keysOf a) a

/-- The names emitted by the attribute-reordering pass, given the map
iteration order `names`: pinned `for_each` first (when present), then the
remaining names sorted. -/
def canonNames (names : List String) : List String :=
  (if "for_each" ∈ names then ["for_each"] else [])
    ++ sortStrings (names.filter (fun n => n ≠ "for_each"))

/-- Size of a block strictly dominates the size of the blocks in its body. -/
theorem sizeOf_lt_of_mem_bodyBlocks :
    ∀ (body : List BodyItem) (x : HBlock), x ∈ bodyBlocks body →
      sizeOf x < sizeOf body := by
  intro body
  induction body with
  | nil => intro x hx; simp [bodyBlocks] at hx
  | cons hd tl ih =>
    intro x hx
    cases hd with
    | attr n e =>
      simp only [bodyBlocks] at hx
      have := ih x hx
      simp only [List.cons.sizeOf_spec]
      omega
    | block b =>
      simp only [bodyBlocks, List.mem_cons] at hx
      rcases hx with rfl | hx
      · simp only [List.cons.sizeOf_spec, BodyItem.block.sizeOf_spec]
        omega
      · have := ih x hx
        simp only [List.cons.sizeOf_spec]
        omega

/-- The size of a block's body is below the size of the block itself. -/
theorem sizeOf_body_lt (b : HBlock) : sizeOf b.body < sizeOf b := by
  cases b with
  | mk t l body =>
    simp only [HBlock.body, HBlock.mk.sizeOf_spec]
    omega

/-- `sortBlockAttributes` from `sortingutil.go`, as a pure transformation on
a block: attributes are all removed and re-set (pinned `for_each` first,
then the rest alphabetically), so they end up in front; then the nested
blocks are stably sorted by `(rank, labels)`, removed, recursively
processed and re-appended after the attributes. -/
def canonBlock (b : HBlock) : HBlock :=
  HBlock.mk b.type b.labels
    ((canonAttrs (bodyAttrs b.body)).map (fun p => BodyItem.attr p.1 p.2)
      ++ (sortBlocksL (bodyBlocks b.body)).attach.map
          (fun x => BodyItem.block (canonBlock x.1)))
termination_by sizeOf b
decreasing_by
  have hx : x.1 ∈ bodyBlocks b.body := by
    have := x.2
    simpa [sortBlocksL, List.mem_insertionSort] using this
  have h1 := sizeOf_lt_of_mem_bodyBlocks b.body x.1 hx
  have h2 := sizeOf_body_lt b
  omega

/-- `parseBlocks` from `sortingutil.go`: collect the top-level blocks,
skipping any block classified as `backend`. -/
def parseBlocksL (bs : List HBlock) : List HBlock :=
  bs.filter (fun b => getBlockType b.type ≠ BlockType.backend)

/-- `SortHCLFile` from `sortingutil.go`, at the level of the block tree:
parse the top-level blocks (dropping top-level backends), stably sort them
by `(rank, labels)`, and append each to a fresh file after recursively
sorting its attributes and children. -/
def sortHCLFile (bs : List HBlock) : List HBlock :=
  (sortBlocksL (parseBlocksL bs)).map canonBlock

mutual
/-- Content equivalence of blocks, C4's "multiset of (type, labels,
attribute name to expression text, recursively for children)": same type,
same labels, the attributes a permutation, and the children a permutation
of content-equivalent blocks. -/
inductive CEquiv : HBlock → HBlock → Prop where
  | mk : ∀ (t : String) (l : List String) (body1 body2 : List BodyItem),
      bodyAttrs body1 ~ bodyAttrs body2 →
      CPerm (bodyBlocks body1) (bodyBlocks body2) →
      CEquiv (.mk t l body1) (.mk t l body2)

/-- `CPerm l1 l2`: `l2` is, up to order, a list of blocks content-equivalent
to those of `l1`. -/
inductive CPerm : List HBlock → List HBlock → Prop where
  | mk : ∀ (l1 lmid l2 : List HBlock), l1 ~ lmid → CAll lmid l2 → CPerm l1 l2

/-- Pointwise content equivalence of two block lists. -/
inductive CAll : List HBlock → List HBlock → Prop where
  | nil : CAll [] []
  | cons : ∀ {a b : HBlock} {l1 l2 : List HBlock},
      CEquiv a b → CAll l1 l2 → CAll (a :: l1) (b :: l2)
end

/-- The parser-layer invariant the core assumes: within every block, at
every depth, attribute names are unique. -/
inductive WFBlock : HBlock → Prop where
  | mk : ∀ (t : String) (l : List String) (body : List BodyItem),
      ((bodyAttrs body).map Prod.fst).Nodup →
      (∀ x ∈ bodyBlocks body, WFBlock x) →
      WFBlock (.mk t l body)

/-- C2's attribute layout: if `for_each` is present it comes first and the
remaining names are strictly ascending; otherwise all names are strictly
ascending. -/
def AttrLayoutOk (as : List (String × String)) : Prop :=
  if "for_each" ∈ as.map Prod.fst then
    ∃ v rest, as = ("for_each", v) :: rest ∧ (rest.map Prod.fst).Sorted (· < ·)
  else (as.map Prod.fst).Sorted (· < ·)

/-- The attribute layout holds in a block and, recursively, in every block
nested in its body. -/
inductive DeepAttrsOk : HBlock → Prop where
  | mk : ∀ (t : String) (l : List String) (body : List BodyItem),
      AttrLayoutOk (bodyAttrs body) →
      (∀ x ∈ bodyBlocks body, DeepAttrsOk x) →
      DeepAttrsOk (.mk t l body)

/-- C9's body shape: all attributes precede all nested blocks, recursively
at every depth. -/
inductive DeepSplitOk : HBlock → Prop where
  | mk : ∀ (t : String) (l : List String) (body : List BodyItem),
      body = (bodyAttrs body).map (fun p => BodyItem.attr p.1 p.2)
          ++ (bodyBlocks body).map BodyItem.block →
      (∀ x ∈ bodyBlocks body, DeepSplitOk x) →
      DeepSplitOk (.mk t l body)

/-- The per-block `switch` of `ValidateRequiredBlockLabels` in
`parsingutil.go` (the block's raw type string is matched case-sensitively):
label-count rules for the known types, and an unconditional rejection of a
top-level `backend` block. -/
def validateTopBlock (b : HBlock) : Option String :=
  if b.type = "resource" ∨ b.type = "data" then
    if b.labels.length ≠ 2 then
      some (b.type ++ " block must have exactly 2 labels, got "
        ++ toString b.labels.length)
    else none
  else if b.type = "module" ∨ b.type = "provider" ∨ b.type = "variable"
      ∨ b.type = "output" then
    if b.labels.length ≠ 1 then
      some (b.type ++ " block must have exactly 1 label, got "
        ++ toString b.labels.length)
    else none
  else if b.type = "locals" ∨ b.type = "terraform" then
    if b.labels.length ≠ 0 then
      some (b.type ++ " block should not have labels: got "
        ++ toString b.labels.length)
    else none
  else if b.type = "backend" then
    if b.labels.length ≠ 1 then
      some ("backend block must have exactly 1 label, got "
        ++ toString b.labels.length)
    else some "backend block must be inside a terraform block"
  else none

/-- The trailing special case of `ValidateRequiredBlockLabels`: for a
`terraform` block, the first nested `backend` block without exactly one
label is an error. -/
def validateTerraformInner (b : HBlock) : Option String :=
  if b.type = "terraform" then
    (bodyBlocks b.body).findSome? (fun inner =>
      if inner.type = "backend" ∧ inner.labels.length ≠ 1 then
        some ("backend block inside terraform must have exactly 1 label, got "
          ++ toString inner.labels.length)
      else none)
  else none

/-- `ValidateRequiredBlockLabels` from `parsingutil.go`: iterate the
top-level blocks in order and return the first violation, if any.  Only
top-level blocks are inspected (plus `backend` blocks directly inside a
`terraform` block); deeper nesting is never visited. -/
def validateRequiredBlockLabels : List HBlock → Option String
  | [] => none
  | b :: rest =>
    match validateTopBlock b with
    | some e => some e
    | none =>
      match validateTerraformInner b with
      | some e => some e
      | none => validateRequiredBlockLabels rest

/-- The structural condition under which a top-level block passes the
validator, read off from the `switch` in `parsingutil.go`. -/
def LabelRuleOk (b : HBlock) : Prop :=
  (b.type = "resource" ∨ b.type = "data" → b.labels.length = 2) ∧
  (b.type = "module" ∨ b.type = "provider" ∨ b.type = "variable"
    ∨ b.type = "output" → b.labels.length = 1) ∧
  (b.type = "locals" ∨ b.type = "terraform" → b.labels.length = 0) ∧
  b.type ≠ "backend" ∧
  (b.type = "terraform" → ∀ inner ∈ bodyBlocks b.body,
    inner.type = "backend" → inner.labels.length = 1)

/-- Go error values relevant to the formatting pipeline, as a closed
variant type: `fmt.Errorf` messages, `TerraformNotFoundError`,
`FormattingError` (which wraps an inner error), and `SortingError`. -/
inductive GoErr : Type where
  | plain (msg : String)
  | terraformNotFound (msg : String)
  | formattingError (op : String) (path : String) (content : String) (err : GoErr)
  | sortingError (op : String) (path : String) (err : GoErr)

/-- `IsTerraformNotFoundError` from `formattingutil.go`: a
`TerraformNotFoundError` itself, or a `FormattingError` whose direct inner
error is one. -/
def isTerraformNotFoundError : GoErr → Bool
  | .terraformNotFound _ => true
  | .formattingError _ _ _ (.terraformNotFound _) => true
  | _ => false

/-- The environment the format delegate runs in: whether the `terraform`
binary is on the path, which of the temp-file steps fail, whether
`terraform fmt` rejects the input, and what the external formatter writes
back on success. -/
structure FmtEnv where
  terraformAvailable : Bool
  lookPathErr : String
  createTempErr : Option String
  writeErr : Option String
  fmtRunErr : Option String
  readErr : Option String
  fmtOutput : String → String

/-- `checkTerraformAvailable` from `formattingutil.go`. -/
def checkTerraformAvailable (env : FmtEnv) : Option GoErr :=
  if env.terraformAvailable then none
  else some (.terraformNotFound env.lookPathErr)

/-- `applyTerraformFmt` from `formattingutil.go`: empty content returns
empty immediately; otherwise the binary is looked up, the content goes
through a temp file and `terraform fmt`, and on any failure the original
content is returned together with the error. -/
def applyTerraformFmt (env : FmtEnv) (content : String) :
    String × Option GoErr :=
  if content = "" then ("", none)
  else
    match checkTerraformAvailable env with
    | some e => (content, some e)
    | none =>
      match env.createTempErr with
      | some m => (content, some (.formattingError "applyTerraformFmt" ""
          content (.plain ("failed to create temporary file: " ++ m))))
      | none =>
        match env.writeErr with
        | some m => (content, some (.formattingError "applyTerraformFmt" ""
            content (.plain ("failed to write to temporary file: " ++ m))))
        | none =>
          match env.fmtRunErr with
          | some m => (content, some (.formattingError "applyTerraformFmt" ""
              content (.plain ("terraform fmt failed: " ++ m))))
          | none =>
            match env.readErr with
            | some m => (content, some (.formattingError "applyTerraformFmt" ""
                content (.plain ("failed to read formatted file: " ++ m))))
            | none => (env.fmtOutput content, none)

mutual
/-- Serialization of a block to text, standing in for `hclwrite`'s
`File.Bytes()` token rendering. -/
def serializeBlock : HBlock → String
  | .mk t l body =>
    t ++ String.join (l.map (fun s => " \"" ++ s ++ "\"")) ++ " \x7b\n"
      ++ serializeBody body ++ "\x7d\n"

/-- Serialization of a body, item by item in order. -/
def serializeBody : List BodyItem → String
  | [] => ""
  | .attr n e :: rest => "  " ++ n ++ " = " ++ e ++ "\n" ++ serializeBody rest
  | .block b :: rest => serializeBlock b ++ serializeBody rest
end

/-- Serialization of a file: its blocks with a blank line between
consecutive blocks (`SortHCLFile` appends a newline after each block except
the last); an empty file serializes to the empty string, as
`hclwrite.NewEmptyFile().Bytes()` does. -/
def serializeFile : List HBlock → String
  | [] => ""
  | [b] => serializeBlock b
  | b :: rest => serializeBlock b ++ "\n" ++ serializeFile rest

/-- `SortHCLFile` including its `nil` guard: a nil file becomes a fresh
empty file (no blocks). -/
def sortHCLFileOpt : Option (List HBlock) → List HBlock
  | none => []
  | some f => sortHCLFile f

/-- `FormatHCLFile` from `formattingutil.go`: nil file is an error;
otherwise serialize and run `applyTerraformFmt`, wrapping any failure in a
`FormattingError`. -/
def formatHCLFile (env : FmtEnv) (file : Option (List HBlock)) :
    String × Option GoErr :=
  match file with
  | none => ("", some (.formattingError "FormatHCLFile" "" ""
      (.plain "nil file provided")))
  | some f =>
    let raw := serializeFile f
    match applyTerraformFmt env raw with
    | (formatted, none) => (formatted, none)
    | (_, some e) => (raw, some (.formattingError "FormatHCLFile" "" raw e))

/-- `SortAndFormatHCLFile` from `sortingutil.go`: sort, then format,
wrapping a formatting failure in a `SortingError`. -/
def sortAndFormatHCLFile (env : FmtEnv) (file : Option (List HBlock)) :
    String × Option GoErr :=
  match formatHCLFile env (some (sortHCLFileOpt file)) with
  | (formatted, none) => (formatted, none)
  | (formatted, some e) =>
    (formatted, some (.sortingError "SortAndFormatHCLFile" "" e))

/-- `sortBlockAttributes` parameterised by the order in which the Go map
iteration enumerates each block's attribute names (`choice`); the real run
is `canonBlock`, which uses one canonical enumeration. -/
def canonBlockWith (choice : HBlock → List String) (b : HBlock) : HBlock :=
  HBlock.mk b.type b.labels
    ((canonAttrsWith (choice b) (bodyAttrs b.body)).map
        (fun p => BodyItem.attr p.1 p.2)
      ++ (sortBlocksL (bodyBlocks b.body)).attach.map
          (fun x => BodyItem.block (canonBlockWith choice x.1)))
termination_by sizeOf b
decreasing_by
  have hx : x.1 ∈ bodyBlocks b.body := by
    have := x.2
    simpa [sortBlocksL, List.mem_insertionSort] using this
  have h1 := sizeOf_lt_of_mem_bodyBlocks b.body x.1 hx
  have h2 := sizeOf_body_lt b
  omega

/-- `SortHCLFile` under an arbitrary per-block map iteration order. -/
def sortHCLFileWith (choice : HBlock → List String) (bs : List HBlock) :
    List HBlock :=
  (sortBlocksL (parseBlocksL bs)).map (canonBlockWith choice)


theorem canonAttrsWith_eq_map (names : List String) (a : List (String × String)) :
    canonAttrsWith names a =
      (canonNames names).map (fun n => (n, attrValue a n)) := by
  by_cases h : "for_each" ∈ names <;>
    simp [canonAttrsWith, canonNames, h]

theorem sortStrings_sorted (l : List String) :
    (sortStrings l).Sorted (· ≤ ·) :=
  List.sorted_insertionSort _ l

theorem sortStrings_perm (l : List String) : sortStrings l ~ l :=
  List.perm_insertionSort _ l

theorem sortStrings_eq_of_perm {l1 l2 : List String} (h : l1 ~ l2) :
    sortStrings l1 = sortStrings l2 :=
  List.eq_of_perm_of_sorted
    (((sortStrings_perm l1).trans h).trans (sortStrings_perm l2).symm)
    (sortStrings_sorted l1) (sortStrings_sorted l2)

theorem keysOf_nodup (a : List (String × String)) : (keysOf a).Nodup :=
  List.nodup_dedup _

theorem keysOf_eq_of_nodup {a : List (String × String)}
    (h : (a.map Prod.fst).Nodup) : keysOf a = a.map Prod.fst :=
  List.dedup_eq_self.mpr h

theorem attrValue_eq :
    ∀ (a : List (String × String)), (a.map Prod.fst).Nodup →
      ∀ {n v : String}, (n, v) ∈ a → attrValue a n = v := by
  intro a
  induction a with
  | nil => intro _ n v h; simp at h
  | cons p rest ih =>
    intro hnd n v hmem
    simp only [List.map_cons, List.nodup_cons] at hnd
    obtain ⟨hp, hnd'⟩ := hnd
    rcases List.mem_cons.mp hmem with heq | hmem'
    · subst heq
      have hrest : rest.filter (fun q => q.1 = n) = [] := by
        rw [List.filter_eq_nil_iff]
        intro q hq
        simp only [decide_eq_true_eq]
        intro hq1
        have hmm : q.1 ∈ rest.map Prod.fst := List.mem_map_of_mem Prod.fst hq
        rw [hq1] at hmm
        exact hp hmm
      unfold attrValue
      simp [List.filter_cons, hrest]
    · have hne : p.1 ≠ n := by
        intro e
        apply hp
        rw [e]
        exact List.mem_map_of_mem Prod.fst hmem'
      have hstep : attrValue (p :: rest) n = attrValue rest n := by
        unfold attrValue
        simp [List.filter_cons, hne]
      rw [hstep]
      exact ih hnd' hmem'

theorem map_attrValue_eq {a : List (String × String)}
    (hnd : (a.map Prod.fst).Nodup) :
    a.map (fun p => (p.1, attrValue a p.1)) = a := by
  have h : ∀ p ∈ a, (fun p => (p.1, attrValue a p.1)) p = id p := by
    intro p hp
    have : attrValue a p.1 = p.2 := by
      apply attrValue_eq a hnd
      cases p
      simpa using hp
    simp [this]
  rw [List.map_congr_left h, List.map_id]

theorem canonNames_perm {names : List String} (hnd : names.Nodup) :
    canonNames names ~ names := by
  unfold canonNames
  by_cases h : "for_each" ∈ names
  · rw [if_pos h]
    have h1 : sortStrings (names.filter (fun n => n ≠ "for_each")) ~
        names.filter (fun n => n ≠ "for_each") := sortStrings_perm _
    have h2 : names.filter (fun n => n ≠ "for_each") = names.erase "for_each" := by
      rw [hnd.erase_eq_filter]
      apply List.filter_congr
      intro x _
      by_cases hx : x = "for_each" <;> simp [hx]
    calc "for_each" :: sortStrings (names.filter (fun n => n ≠ "for_each"))
        ~ "for_each" :: names.filter (fun n => n ≠ "for_each") := h1.cons _
      _ = "for_each" :: names.erase "for_each" := by rw [h2]
      _ ~ names := (List.perm_cons_erase h).symm
  · rw [if_neg h]
    have h2 : names.filter (fun n => n ≠ "for_each") = names := by
      rw [List.filter_eq_self]
      intro x hx
      simp only [decide_eq_true_eq]
      intro e
      exact h (e ▸ hx)
    simp only [List.nil_append, h2]
    exact sortStrings_perm _

theorem canonNames_nodup {names : List String} (hnd : names.Nodup) :
    (canonNames names).Nodup :=
  (canonNames_perm hnd).nodup_iff.mpr hnd

theorem canonNames_eq_of_perm {l1 l2 : List String} (h : l1 ~ l2) :
    canonNames l1 = canonNames l2 := by
  unfold canonNames
  have hf := sortStrings_eq_of_perm (h.filter (fun n => decide (n ≠ "for_each")))
  by_cases h1 : "for_each" ∈ l1
  · rw [if_pos h1, if_pos (h.mem_iff.mp h1), hf]
  · rw [if_neg h1, if_neg (fun hm => h1 (h.mem_iff.mpr hm)), hf]

/-- The attribute output does not depend on the map iteration order: any
permutation of the key set produces the canonical result. -/
theorem canonAttrsWith_eq_canonAttrs {names : List String}
    {a : List (String × String)} (h : names ~ keysOf a) :
    canonAttrsWith names a = canonAttrs a := by
  unfold canonAttrs
  rw [canonAttrsWith_eq_map, canonAttrsWith_eq_map,
    canonNames_eq_of_perm h]

/-- On a body whose attribute names are unique (the parser invariant), the
reordered attributes are a permutation of the original ones. -/
theorem canonAttrs_perm {a : List (String × String)}
    (hnd : (a.map Prod.fst).Nodup) : canonAttrs a ~ a := by
  unfold canonAttrs
  rw [canonAttrsWith_eq_map, keysOf_eq_of_nodup hnd]
  calc (canonNames (a.map Prod.fst)).map (fun n => (n, attrValue a n))
      ~ (a.map Prod.fst).map (fun n => (n, attrValue a n)) :=
        (canonNames_perm hnd).map _
    _ = a.map (fun p => (p.1, attrValue a p.1)) := by
        rw [List.map_map]
        simp [Function.comp_def]
    _ = a := map_attrValue_eq hnd

theorem canonAttrs_keys (a : List (String × String)) :
    (canonAttrs a).map Prod.fst = canonNames (keysOf a) := by
  unfold canonAttrs
  rw [canonAttrsWith_eq_map, List.map_map]
  simp [Function.comp_def]

/-- Unfolding equation for `canonBlock` without `attach`. -/
theorem canonBlock_def (b : HBlock) :
    canonBlock b =
      HBlock.mk b.type b.labels
        ((canonAttrs (bodyAttrs b.body)).map (fun p => BodyItem.attr p.1 p.2)
          ++ (sortBlocksL (bodyBlocks b.body)).map
              (fun x => BodyItem.block (canonBlock x))) := by
  rw [canonBlock]
  congr 1
  simp [List.attach_map_coe]

theorem compareLabels_irrefl : ∀ x : List String, compareLabels x x = false := by
  intro x
  induction x with
  | nil => rfl
  | cons a as ih => simp [compareLabels, ih]

theorem compareLabels_asymm :
    ∀ x y : List String, compareLabels x y = true → compareLabels y x = false := by
  intro x
  induction x with
  | nil =>
    intro y h
    cases y with
    | nil => simp [compareLabels] at h
    | cons b bs => rfl
  | cons a as ih =>
    intro y h
    cases y with
    | nil => simp [compareLabels] at h
    | cons b bs =>
      simp only [compareLabels] at h ⊢
      by_cases hab : a = b
      · subst hab
        simp only [ne_eq, not_true_eq_false, if_false, reduceIte] at h ⊢
        exact ih bs h
      · have hba : b ≠ a := fun e => hab e.symm
        rw [if_pos hab] at h
        rw [if_pos hba]
        simp only [decide_eq_true_eq] at h
        simpa using lt_asymm h

theorem compareLabels_eq_of_both_false :
    ∀ x y : List String, compareLabels x y = false → compareLabels y x = false →
      x = y := by
  intro x
  induction x with
  | nil =>
    intro y h1 _
    cases y with
    | nil => rfl
    | cons b bs => simp [compareLabels] at h1
  | cons a as ih =>
    intro y h1 h2
    cases y with
    | nil => simp [compareLabels] at h2
    | cons b bs =>
      simp only [compareLabels] at h1 h2
      by_cases hab : a = b
      · subst hab
        simp only [ne_eq, not_true_eq_false, if_false, reduceIte] at h1 h2
        rw [ih bs h1 h2]
      · have hba : b ≠ a := fun e => hab e.symm
        rw [if_pos hab] at h1
        rw [if_pos hba] at h2
        simp only [decide_eq_false_iff_not] at h1 h2
        rcases lt_or_gt_of_ne hab with h | h
        · exact absurd h h1
        · exact absurd h h2

theorem compareLabels_trans :
    ∀ x y z : List String, compareLabels x y = true → compareLabels y z = true →
      compareLabels x z = true := by
  intro x
  induction x with
  | nil =>
    intro y z h1 h2
    cases y with
    | nil => simp [compareLabels] at h1
    | cons b bs =>
      cases z with
      | nil => simp [compareLabels] at h2
      | cons c cs => rfl
  | cons a as ih =>
    intro y z h1 h2
    cases y with
    | nil => simp [compareLabels] at h1
    | cons b bs =>
      cases z with
      | nil => simp [compareLabels] at h2
      | cons c cs =>
        simp only [compareLabels] at h1 h2 ⊢
        by_cases hab : a = b <;> by_cases hbc : b = c
        · subst hab; subst hbc
          simp only [ne_eq, not_true_eq_false, if_false, reduceIte] at h1 h2 ⊢
          exact ih bs cs h1 h2
        · subst hab
          rw [if_pos hbc] at h2
          rw [if_pos hbc]
          exact h2
        · subst hbc
          rw [if_pos hab] at h1
          rw [if_pos hab]
          exact h1
        · rw [if_pos hab] at h1
          rw [if_pos hbc] at h2
          simp only [decide_eq_true_eq] at h1 h2
          have hac : a < c := lt_trans h1 h2
          rw [if_pos (ne_of_lt hac)]
          simpa using hac

theorem compareLabels_false_trans {la lb lc : List String}
    (h1 : compareLabels lb la = false) (h2 : compareLabels lc lb = false) :
    compareLabels lc la = false := by
  by_contra h
  have hca : compareLabels lc la = true := by
    simpa using h
  by_cases h3 : compareLabels la lb = true
  · have := compareLabels_trans lc la lb hca h3
    rw [this] at h2
    simp at h2
  · have h3' : compareLabels la lb = false := by simpa using h3
    have : la = lb := compareLabels_eq_of_both_false la lb h3' h1
    subst this
    rw [hca] at h2
    simp at h2

/-- `blockLess` only looks at a block's type keyword and labels. -/
theorem blockLess_congr {a a' b b' : HBlock}
    (ha1 : a.type = a'.type) (ha2 : a.labels = a'.labels)
    (hb1 : b.type = b'.type) (hb2 : b.labels = b'.labels) :
    blockLess a b = blockLess a' b' := by
  simp only [blockLess, ha1, ha2, hb1, hb2]

theorem blockLess_asymm {a b : HBlock} (h : blockLess a b = true) :
    blockLess b a = false := by
  simp only [blockLess] at h ⊢
  by_cases hr : blockTypeOrder (getBlockType a.type) =
      blockTypeOrder (getBlockType b.type)
  · rw [hr] at h ⊢
    simp only [ne_eq, not_true_eq_false, if_false, reduceIte] at h ⊢
    exact compareLabels_asymm _ _ h
  · have hr' : blockTypeOrder (getBlockType b.type) ≠
        blockTypeOrder (getBlockType a.type) := fun e => hr e.symm
    rw [if_pos hr] at h
    rw [if_pos hr']
    simp only [decide_eq_true_eq] at h
    simpa using lt_asymm h

theorem blockLE_total : ∀ a b : HBlock, blockLE a b ∨ blockLE b a := by
  intro a b
  unfold blockLE
  by_cases h : blockLess b a = true
  · right
    exact blockLess_asymm h
  · left
    simpa using h

theorem blockLE_trans : ∀ {a b c : HBlock}, blockLE a b → blockLE b c →
    blockLE a c := by
  intro a b c h1 h2
  unfold blockLE at h1 h2 ⊢
  simp only [blockLess] at h1 h2 ⊢
  by_cases hba : blockTypeOrder (getBlockType b.type) =
      blockTypeOrder (getBlockType a.type)
  · rw [hba] at h1
    by_cases hcb : blockTypeOrder (getBlockType c.type) =
        blockTypeOrder (getBlockType b.type)
    · rw [hcb, hba] at h2 ⊢
      simp only [ne_eq, not_true_eq_false, if_false, reduceIte] at h1 h2 ⊢
      exact compareLabels_false_trans h1 h2
    · rw [if_pos hcb] at h2
      simp only [decide_eq_false_iff_not, not_lt] at h2
      have hcb' : blockTypeOrder (getBlockType c.type) ≠
          blockTypeOrder (getBlockType a.type) := by
        rw [← hba]; exact hcb
      rw [if_pos hcb']
      simp only [decide_eq_false_iff_not, not_lt]
      omega
  · rw [if_pos hba] at h1
    simp only [decide_eq_false_iff_not, not_lt] at h1
    by_cases hcb : blockTypeOrder (getBlockType c.type) =
        blockTypeOrder (getBlockType b.type)
    · have hca : blockTypeOrder (getBlockType c.type) ≠
          blockTypeOrder (getBlockType a.type) := by
        rw [hcb]; exact hba
      rw [if_pos hca]
      simp only [decide_eq_false_iff_not, not_lt]
      omega
    · rw [if_pos hcb] at h2
      simp only [decide_eq_false_iff_not, not_lt] at h2
      by_cases hca : blockTypeOrder (getBlockType c.type) =
          blockTypeOrder (getBlockType a.type)
      · omega
      · rw [if_pos hca]
        simp only [decide_eq_false_iff_not, not_lt]
        omega

instance : IsTotal HBlock blockLE := ⟨blockLE_total⟩

instance : IsTrans HBlock blockLE := ⟨fun _ _ _ => blockLE_trans⟩

/-- Blocks with equal keys compare `≤` in both directions. -/
theorem blockLE_of_key_eq {a b : HBlock} (h : blockKey a = blockKey b) :
    blockLE a b := by
  unfold blockLE
  simp only [blockKey, Prod.mk.injEq] at h
  simp only [blockLess, h.1, h.2, ne_eq, not_true_eq_false, if_false,
    reduceIte, compareLabels_irrefl]

theorem mem_sortStrings {x : String} {l : List String} :
    x ∈ sortStrings l ↔ x ∈ l :=
  List.mem_insertionSort _

theorem sortStrings_of_sorted {l : List String} (h : l.Sorted (· ≤ ·)) :
    sortStrings l = l :=
  h.insertionSort_eq

theorem not_for_each_mem_sortStrings_filter (names : List String) :
    ∀ x ∈ sortStrings (names.filter (fun n => n ≠ "for_each")),
      x ≠ "for_each" := by
  intro x hx
  have hx' := mem_sortStrings.mp hx
  have := List.of_mem_filter hx'
  simpa using this

/-- `canonNames` is idempotent on any name list. -/
theorem canonNames_idem (names : List String) :
    canonNames (canonNames names) = canonNames names := by
  by_cases h : "for_each" ∈ names
  · have hdef : canonNames names =
        "for_each" :: sortStrings (names.filter (fun n => n ≠ "for_each")) := by
      unfold canonNames
      rw [if_pos h]
      rfl
    rw [hdef]
    unfold canonNames
    rw [if_pos (List.mem_cons_self _ _)]
    have hpred : ∀ x ∈ sortStrings (names.filter (fun n => n ≠ "for_each")),
        (decide (x ≠ "for_each")) = true := fun x hx => by
      simpa using not_for_each_mem_sortStrings_filter names x hx
    have hfilter :
        ("for_each" :: sortStrings (names.filter (fun n => n ≠ "for_each"))).filter
            (fun n => n ≠ "for_each") =
          sortStrings (names.filter (fun n => n ≠ "for_each")) := by
      rw [List.filter_cons]
      simp only [decide_eq_true_eq]
      rw [if_neg (by simp)]
      exact List.filter_eq_self.mpr hpred
    rw [hfilter, sortStrings_of_sorted (sortStrings_sorted _)]
    rfl
  · have hdef : canonNames names =
        sortStrings (names.filter (fun n => n ≠ "for_each")) := by
      unfold canonNames
      rw [if_neg h]
      rfl
    rw [hdef]
    unfold canonNames
    have hnm : "for_each" ∉ sortStrings (names.filter (fun n => n ≠ "for_each")) := by
      intro hmem
      exact not_for_each_mem_sortStrings_filter names _ hmem rfl
    rw [if_neg hnm]
    have hfilter :
        (sortStrings (names.filter (fun n => n ≠ "for_each"))).filter
            (fun n => n ≠ "for_each") =
          sortStrings (names.filter (fun n => n ≠ "for_each")) := by
      rw [List.filter_eq_self]
      intro x hx
      simpa using not_for_each_mem_sortStrings_filter names x hx
    rw [hfilter, sortStrings_of_sorted (sortStrings_sorted _)]
    rfl

theorem keysOf_canonAttrs (a : List (String × String)) :
    keysOf (canonAttrs a) = canonNames (keysOf a) := by
  unfold keysOf
  rw [canonAttrs_keys]
  exact List.dedup_eq_self.mpr (canonNames_nodup (keysOf_nodup a))

/-- The attribute-reordering of `sortBlockAttributes` is idempotent. -/
theorem canonAttrs_idem (a : List (String × String)) :
    canonAttrs (canonAttrs a) = canonAttrs a := by
  have hN : (canonAttrs a).map Prod.fst = canonNames (keysOf a) := canonAttrs_keys a
  have hNnd : (canonNames (keysOf a)).Nodup := canonNames_nodup (keysOf_nodup a)
  have hval : ∀ n ∈ canonNames (keysOf a),
      attrValue (canonAttrs a) n = attrValue a n := by
    intro n hn
    apply attrValue_eq _ (hN ▸ hNnd)
    have : (n, attrValue a n) ∈
        (canonNames (keysOf a)).map (fun n => (n, attrValue a n)) :=
      List.mem_map_of_mem _ hn
    rw [canonAttrs, canonAttrsWith_eq_map]
    exact this
  conv_lhs => rw [canonAttrs, canonAttrsWith_eq_map, keysOf_canonAttrs,
    canonNames_idem]
  rw [List.map_congr_left (fun n hn => by rw [hval n hn])]
  rw [canonAttrs, canonAttrsWith_eq_map]

theorem sortBlocksL_perm (l : List HBlock) : sortBlocksL l ~ l :=
  List.perm_insertionSort _ l

theorem sortBlocksL_sorted (l : List HBlock) :
    (sortBlocksL l).Sorted blockLE :=
  List.sorted_insertionSort _ l

theorem sortBlocksL_of_sorted {l : List HBlock} (h : l.Sorted blockLE) :
    sortBlocksL l = l :=
  h.insertionSort_eq

theorem mem_sortBlocksL {x : HBlock} {l : List HBlock} :
    x ∈ sortBlocksL l ↔ x ∈ l :=
  List.mem_insertionSort _

theorem bodyAttrs_append (l1 l2 : List BodyItem) :
    bodyAttrs (l1 ++ l2) = bodyAttrs l1 ++ bodyAttrs l2 := by
  induction l1 with
  | nil => rfl
  | cons hd tl ih => cases hd <;> simp [bodyAttrs, ih]

theorem bodyBlocks_append (l1 l2 : List BodyItem) :
    bodyBlocks (l1 ++ l2) = bodyBlocks l1 ++ bodyBlocks l2 := by
  induction l1 with
  | nil => rfl
  | cons hd tl ih => cases hd <;> simp [bodyBlocks, ih]

theorem bodyAttrs_map_attr (l : List (String × String)) :
    bodyAttrs (l.map (fun p => BodyItem.attr p.1 p.2)) = l := by
  induction l with
  | nil => rfl
  | cons hd tl ih => simp [bodyAttrs, ih]

theorem bodyBlocks_map_attr (l : List (String × String)) :
    bodyBlocks (l.map (fun p => BodyItem.attr p.1 p.2)) = [] := by
  induction l with
  | nil => rfl
  | cons hd tl ih => simp [bodyBlocks, ih]

theorem bodyAttrs_map_block (l : List HBlock) (g : HBlock → HBlock) :
    bodyAttrs (l.map (fun x => BodyItem.block (g x))) = [] := by
  induction l with
  | nil => rfl
  | cons hd tl ih => simp [bodyAttrs, ih]

theorem bodyBlocks_map_block (l : List HBlock) (g : HBlock → HBlock) :
    bodyBlocks (l.map (fun x => BodyItem.block (g x))) = l.map g := by
  induction l with
  | nil => rfl
  | cons hd tl ih => simp [bodyBlocks, ih]

theorem canonBlock_type (b : HBlock) : (canonBlock b).type = b.type := by
  rw [canonBlock_def]
  rfl

theorem canonBlock_labels (b : HBlock) : (canonBlock b).labels = b.labels := by
  rw [canonBlock_def]
  rfl

theorem blockKey_canonBlock (b : HBlock) : blockKey (canonBlock b) = blockKey b := by
  unfold blockKey
  rw [canonBlock_type, canonBlock_labels]

theorem canonBlock_bodyAttrs (b : HBlock) :
    bodyAttrs (canonBlock b).body = canonAttrs (bodyAttrs b.body) := by
  rw [canonBlock_def]
  show bodyAttrs (_ ++ _) = _
  rw [bodyAttrs_append, bodyAttrs_map_attr, bodyAttrs_map_block,
    List.append_nil]

theorem canonBlock_bodyBlocks (b : HBlock) :
    bodyBlocks (canonBlock b).body = (sortBlocksL (bodyBlocks b.body)).map canonBlock := by
  rw [canonBlock_def]
  show bodyBlocks (_ ++ _) = _
  rw [bodyBlocks_append, bodyBlocks_map_attr, bodyBlocks_map_block,
    List.nil_append]

theorem blockLE_canonBlock {a b : HBlock} (h : blockLE a b) :
    blockLE (canonBlock a) (canonBlock b) := by
  unfold blockLE at h ⊢
  rw [blockLess_congr (canonBlock_type b) (canonBlock_labels b)
    (canonBlock_type a) (canonBlock_labels a)]
  exact h

/-- Strong induction over the block tree: to prove `P` for a block it
suffices to prove it assuming `P` for all blocks nested in its body. -/
theorem hblock_induction {P : HBlock → Prop}
    (h : ∀ b : HBlock, (∀ x ∈ bodyBlocks b.body, P x) → P b) :
    ∀ b, P b := by
  have key : ∀ (n : Nat) (b : HBlock), sizeOf b ≤ n → P b := by
    intro n
    induction n with
    | zero =>
      intro b hb
      cases b with
      | mk t l body =>
        simp only [HBlock.mk.sizeOf_spec] at hb
        omega
    | succ n ih =>
      intro b hb
      apply h
      intro x hx
      apply ih
      have h1 := sizeOf_lt_of_mem_bodyBlocks b.body x hx
      have h2 := sizeOf_body_lt b
      omega
  intro b
  exact key (sizeOf b) b le_rfl

/-- Sortedness of a block list is preserved by recursively canonicalizing
each block (the sort key only depends on type and labels). -/
theorem sorted_map_canonBlock {l : List HBlock} (h : l.Sorted blockLE) :
    (l.map canonBlock).Sorted blockLE :=
  List.Pairwise.map _ (fun _ _ hab => blockLE_canonBlock hab) h

/-- `sortBlockAttributes` is idempotent on every block. -/
theorem canonBlock_idem : ∀ b : HBlock, canonBlock (canonBlock b) = canonBlock b := by
  apply hblock_induction
  intro b ih
  conv_lhs => rw [canonBlock_def (canonBlock b)]
  rw [canonBlock_type, canonBlock_labels, canonBlock_bodyAttrs,
    canonBlock_bodyBlocks, canonAttrs_idem,
    sortBlocksL_of_sorted (sorted_map_canonBlock (sortBlocksL_sorted _)),
    List.map_map]
  conv_rhs => rw [canonBlock_def b]
  congr 1
  congr 1
  apply List.map_congr_left
  intro x hx
  have hx' : x ∈ bodyBlocks b.body := mem_sortBlocksL.mp hx
  simp only [Function.comp_apply]
  rw [ih x hx']

section Stability

variable {α : Type _} (r : α → α → Prop) [DecidableRel r] (p : α → Bool)

theorem filter_orderedInsert_of_neg (a : α) (s : List α) (hp : p a = false) :
    (s.orderedInsert r a).filter p = s.filter p := by
  rw [List.orderedInsert_eq_take_drop, List.filter_append, List.filter_cons,
    hp]
  simp only [Bool.false_eq_true, if_false, reduceIte]
  rw [← List.filter_append, List.takeWhile_append_dropWhile]

theorem filter_orderedInsert_of_pos (a : α) (s : List α) (hp : p a = true)
    (h : ∀ b ∈ s, p b = true → r a b) :
    (s.orderedInsert r a).filter p = a :: s.filter p := by
  rw [List.orderedInsert_eq_take_drop, List.filter_append, List.filter_cons,
    hp]
  simp only [if_true, reduceIte]
  have htake : (s.takeWhile fun b => ¬r a b).filter p = [] := by
    rw [List.filter_eq_nil_iff]
    intro b hb
    have hmem : b ∈ s := (List.takeWhile_sublist _).mem hb
    have hpred := List.mem_takeWhile_imp hb
    simp only [decide_eq_true_eq] at hpred
    intro hpb
    exact hpred (h b hmem hpb)
  rw [htake, List.nil_append]
  congr 1
  conv_rhs => rw [← List.takeWhile_append_dropWhile (p := fun b => ¬r a b) (l := s)]
  rw [List.filter_append, htake, List.nil_append]

end Stability

/-- A stable sort leaves the subsequence of elements picked out by `p`
untouched whenever `p`-elements are pairwise related both ways. -/
theorem filter_insertionSort_eq {α : Type _} (r : α → α → Prop) [DecidableRel r]
    (p : α → Bool) :
    ∀ (l : List α), (∀ a ∈ l, ∀ b ∈ l, p a = true → p b = true → r a b) →
      (l.insertionSort r).filter p = l.filter p := by
  intro l
  induction l with
  | nil => intro _; rfl
  | cons a tl ih =>
    intro h
    show ((tl.insertionSort r).orderedInsert r a).filter p = _
    by_cases hp : p a = true
    · rw [filter_orderedInsert_of_pos r p a _ hp]
      · rw [List.filter_cons, hp]
        simp only [if_true, reduceIte]
        rw [ih (fun x hx y hy => h x (List.mem_cons_of_mem _ hx) y
          (List.mem_cons_of_mem _ hy))]
      · intro b hb hpb
        exact h a (List.mem_cons_self _ _) b
          (List.mem_cons_of_mem _ ((List.mem_insertionSort r).mp hb)) hp hpb
    · have hp' : p a = false := by simpa using hp
      rw [filter_orderedInsert_of_neg r p a _ hp', List.filter_cons, hp']
      simp only [Bool.false_eq_true, if_false, reduceIte]
      exact ih (fun x hx y hy => h x (List.mem_cons_of_mem _ hx) y
        (List.mem_cons_of_mem _ hy))

/-- Stability of the block sort: the subsequence of blocks with any fixed
`(rank, labels)` key is untouched. -/
theorem filter_key_sortBlocksL (l : List HBlock) (k : Nat × List String) :
    (sortBlocksL l).filter (fun b => blockKey b = k) =
      l.filter (fun b => blockKey b = k) := by
  apply filter_insertionSort_eq
  intro a _ b _ ha hb
  simp only [decide_eq_true_eq] at ha hb
  exact blockLE_of_key_eq (ha.trans hb.symm)

theorem filter_key_map_canonBlock (l : List HBlock) (k : Nat × List String) :
    (l.map canonBlock).filter (fun b => blockKey b = k) =
      (l.filter (fun b => blockKey b = k)).map canonBlock := by
  induction l with
  | nil => rfl
  | cons a tl ih =>
    simp only [List.map_cons, List.filter_cons, blockKey_canonBlock]
    by_cases hk : blockKey a = k
    · simp [hk, ih]
    · simp [hk, ih]

/-- The canonicalized file's blocks are sorted by `(rank, labels)`. -/
theorem sortHCLFile_sorted (f : List HBlock) :
    (sortHCLFile f).Sorted blockLE :=
  sorted_map_canonBlock (sortBlocksL_sorted _)

/-- No block of the canonicalized file is classified `backend`. -/
theorem sortHCLFile_no_backend (f : List HBlock) :
    ∀ b ∈ sortHCLFile f, getBlockType b.type ≠ BlockType.backend := by
  intro b hb
  unfold sortHCLFile at hb
  rcases List.mem_map.mp hb with ⟨x, hx, rfl⟩
  have hx' : x ∈ parseBlocksL f := mem_sortBlocksL.mp hx
  have hdec := List.of_mem_filter hx'
  rw [canonBlock_type]
  simpa using hdec

/-- Idempotence of the whole-file sort at the tree level. -/
theorem sortHCLFile_idem (f : List HBlock) :
    sortHCLFile (sortHCLFile f) = sortHCLFile f := by
  have hparse : parseBlocksL (sortHCLFile f) = sortHCLFile f := by
    rw [parseBlocksL, List.filter_eq_self]
    intro b hb
    simpa using sortHCLFile_no_backend f b hb
  have hsort : sortBlocksL (sortHCLFile f) = sortHCLFile f :=
    sortBlocksL_of_sorted (sortHCLFile_sorted f)
  show (sortBlocksL (parseBlocksL (sortHCLFile f))).map canonBlock = _
  rw [hparse, hsort]
  unfold sortHCLFile
  rw [List.map_map]
  apply List.map_congr_left
  intro x _
  simp only [Function.comp_apply]
  rw [canonBlock_idem]

theorem cAll_length : ∀ {l1 l2 : List HBlock}, CAll l1 l2 →
    l1.length = l2.length := by
  intro l1
  induction l1 with
  | nil =>
    intro l2 h
    cases h
    rfl
  | cons a tl ih =>
    intro l2 h
    cases h with
    | cons hab htl => simp [ih htl]

theorem cPerm_length {l1 l2 : List HBlock} (h : CPerm l1 l2) :
    l1.length = l2.length := by
  cases h with
  | mk _ lmid _ hperm hall => rw [hperm.length_eq, cAll_length hall]

theorem cAll_map {l : List HBlock} {g : HBlock → HBlock}
    (h : ∀ x ∈ l, CEquiv x (g x)) : CAll l (l.map g) := by
  induction l with
  | nil => exact CAll.nil
  | cons a tl ih =>
    exact CAll.cons (h a (List.mem_cons_self _ _))
      (ih (fun x hx => h x (List.mem_cons_of_mem _ hx)))

/-- Canonicalization of a block preserves its content (type, labels,
attribute multiset, children up to order, recursively), assuming the
parser's unique-attribute-names invariant. -/
theorem cEquiv_canonBlock : ∀ b : HBlock, WFBlock b → CEquiv b (canonBlock b) := by
  apply hblock_induction
    (P := fun b => WFBlock b → CEquiv b (canonBlock b))
  intro b ih hwf
  cases b with
  | mk t l body =>
    cases hwf with
    | mk _ _ _ hnd hsub =>
      rw [canonBlock_def]
      refine CEquiv.mk t l body _ ?_ ?_
      · rw [bodyAttrs_append, bodyAttrs_map_attr, bodyAttrs_map_block,
          List.append_nil]
        exact (canonAttrs_perm hnd).symm
      · rw [bodyBlocks_append, bodyBlocks_map_attr, bodyBlocks_map_block,
          List.nil_append]
        refine CPerm.mk _ (sortBlocksL (bodyBlocks body)) _
          (sortBlocksL_perm _).symm ?_
        apply cAll_map
        intro x hx
        have hx' : x ∈ bodyBlocks body := mem_sortBlocksL.mp hx
        exact ih x hx' (hsub x hx')

theorem parseBlocksL_eq_self {f : List HBlock}
    (h : ∀ b ∈ f, getBlockType b.type ≠ BlockType.backend) :
    parseBlocksL f = f := by
  rw [parseBlocksL, List.filter_eq_self]
  intro b hb
  simpa using h b hb

/-- The attribute layout produced by the reordering pass is canonical:
`for_each` first when present, the rest strictly ascending. -/
theorem attrLayoutOk_canonAttrs (a : List (String × String)) :
    AttrLayoutOk (canonAttrs a) := by
  have hS_nodup : (sortStrings ((keysOf a).filter (fun n => n ≠ "for_each"))).Nodup :=
    (sortStrings_perm _).nodup_iff.mpr ((keysOf_nodup a).filter _)
  have hS_lt : (sortStrings ((keysOf a).filter (fun n => n ≠ "for_each"))).Sorted
      (· < ·) :=
    List.Sorted.lt_of_le (sortStrings_sorted _) hS_nodup
  unfold AttrLayoutOk
  rw [canonAttrs_keys]
  by_cases hm : "for_each" ∈ keysOf a
  · have hform : canonAttrs a =
        ("for_each", attrValue a "for_each") ::
          (sortStrings ((keysOf a).filter (fun n => n ≠ "for_each"))).map
            (fun n => (n, attrValue a n)) := by
      unfold canonAttrs canonAttrsWith
      rw [if_pos hm]
      rfl
    have hcn : canonNames (keysOf a) =
        "for_each" :: sortStrings ((keysOf a).filter (fun n => n ≠ "for_each")) := by
      unfold canonNames
      rw [if_pos hm]
      rfl
    rw [hcn, if_pos (List.mem_cons_self _ _), hform]
    refine ⟨attrValue a "for_each", _, rfl, ?_⟩
    rw [List.map_map]
    simpa [Function.comp_def] using hS_lt
  · have hform : canonAttrs a =
        (sortStrings ((keysOf a).filter (fun n => n ≠ "for_each"))).map
          (fun n => (n, attrValue a n)) := by
      unfold canonAttrs canonAttrsWith
      rw [if_neg hm]
      rfl
    have hcn : canonNames (keysOf a) =
        sortStrings ((keysOf a).filter (fun n => n ≠ "for_each")) := by
      unfold canonNames
      rw [if_neg hm]
      rfl
    have hnm : "for_each" ∉ canonNames (keysOf a) := by
      rw [hcn]
      intro hmem
      exact not_for_each_mem_sortStrings_filter _ _ hmem rfl
    rw [if_neg hnm, ← canonAttrs_keys, hform, List.map_map]
    simpa [Function.comp_def] using hS_lt

/-- Every block produced by the canonicalizer has the canonical attribute
layout, at every depth. -/
theorem deepAttrsOk_canonBlock : ∀ b : HBlock, DeepAttrsOk (canonBlock b) := by
  apply hblock_induction (P := fun b => DeepAttrsOk (canonBlock b))
  intro b ih
  rw [canonBlock_def]
  refine DeepAttrsOk.mk _ _ _ ?_ ?_
  · rw [bodyAttrs_append, bodyAttrs_map_attr, bodyAttrs_map_block,
      List.append_nil]
    exact attrLayoutOk_canonAttrs _
  · intro x hx
    rw [bodyBlocks_append, bodyBlocks_map_attr, bodyBlocks_map_block,
      List.nil_append] at hx
    rcases List.mem_map.mp hx with ⟨y, hy, rfl⟩
    exact ih y (mem_sortBlocksL.mp hy)

/-- Every block produced by the canonicalizer has all attributes before all
nested blocks, at every depth. -/
theorem deepSplitOk_canonBlock : ∀ b : HBlock, DeepSplitOk (canonBlock b) := by
  apply hblock_induction (P := fun b => DeepSplitOk (canonBlock b))
  intro b ih
  rw [canonBlock_def]
  refine DeepSplitOk.mk _ _ _ ?_ ?_
  · rw [bodyAttrs_append, bodyAttrs_map_attr, bodyAttrs_map_block,
      List.append_nil, bodyBlocks_append, bodyBlocks_map_attr,
      bodyBlocks_map_block, List.nil_append, List.map_map]
    rfl
  · intro x hx
    rw [bodyBlocks_append, bodyBlocks_map_attr, bodyBlocks_map_block,
      List.nil_append] at hx
    rcases List.mem_map.mp hx with ⟨y, hy, rfl⟩
    exact ih y (mem_sortBlocksL.mp hy)

/-- Unfolding equation for `canonBlockWith` without `attach`. -/
theorem canonBlockWith_def (choice : HBlock → List String) (b : HBlock) :
    canonBlockWith choice b =
      HBlock.mk b.type b.labels
        ((canonAttrsWith (choice b) (bodyAttrs b.body)).map
            (fun p => BodyItem.attr p.1 p.2)
          ++ (sortBlocksL (bodyBlocks b.body)).map
              (fun x => BodyItem.block (canonBlockWith choice x))) := by
  rw [canonBlockWith]
  congr 1
  simp [List.attach_map_coe]

/-- Whatever order the map iteration enumerates attribute names in, the
recursive reordering produces the canonical result. -/
theorem canonBlockWith_eq {choice : HBlock → List String}
    (hchoice : ∀ b : HBlock, choice b ~ keysOf (bodyAttrs b.body)) :
    ∀ b, canonBlockWith choice b = canonBlock b := by
  apply hblock_induction
    (P := fun b => canonBlockWith choice b = canonBlock b)
  intro b ih
  rw [canonBlockWith_def, canonBlock_def,
    canonAttrsWith_eq_canonAttrs (hchoice b)]
  congr 1
  congr 1
  apply List.map_congr_left
  intro x hx
  rw [ih x (mem_sortBlocksL.mp hx)]

theorem sortHCLFileWith_eq {choice : HBlock → List String}
    (hchoice : ∀ b : HBlock, choice b ~ keysOf (bodyAttrs b.body))
    (f : List HBlock) : sortHCLFileWith choice f = sortHCLFile f := by
  unfold sortHCLFileWith sortHCLFile
  exact List.map_congr_left (fun x _ => canonBlockWith_eq hchoice x)

theorem validateTopBlock_eq_none_iff (b : HBlock) :
    validateTopBlock b = none ↔
      ((b.type = "resource" ∨ b.type = "data") → b.labels.length = 2) ∧
      ((b.type = "module" ∨ b.type = "provider" ∨ b.type = "variable"
        ∨ b.type = "output") → b.labels.length = 1) ∧
      ((b.type = "locals" ∨ b.type = "terraform") → b.labels.length = 0) ∧
      b.type ≠ "backend" := by
  unfold validateTopBlock
  split_ifs with h1 h2 h3 h4 h5 h6 h7 h8
  · refine iff_of_false (by simp) ?_
    rintro ⟨c1, -, -, -⟩
    exact h2 (c1 h1)
  · have hn := not_ne_iff.mp h2
    refine iff_of_true rfl ⟨fun _ => hn, ?_, ?_, ?_⟩
    · intro hm
      rcases h1 with ht | ht <;> rcases hm with hm | hm | hm | hm <;>
        (rw [ht] at hm; simp at hm)
    · intro hm
      rcases h1 with ht | ht <;> rcases hm with hm | hm <;>
        (rw [ht] at hm; simp at hm)
    · intro hb
      rcases h1 with ht | ht <;> (rw [ht] at hb; simp at hb)
  · refine iff_of_false (by simp) ?_
    rintro ⟨-, c2, -, -⟩
    exact h4 (c2 h3)
  · have hn := not_ne_iff.mp h4
    refine iff_of_true rfl ⟨?_, fun _ => hn, ?_, ?_⟩
    · intro hm
      rcases h3 with ht | ht | ht | ht <;> rcases hm with hm | hm <;>
        (rw [ht] at hm; simp at hm)
    · intro hm
      rcases h3 with ht | ht | ht | ht <;> rcases hm with hm | hm <;>
        (rw [ht] at hm; simp at hm)
    · intro hb
      rcases h3 with ht | ht | ht | ht <;> (rw [ht] at hb; simp at hb)
  · refine iff_of_false (by simp) ?_
    rintro ⟨-, -, c3, -⟩
    exact h6 (c3 h5)
  · have hn := not_ne_iff.mp h6
    refine iff_of_true rfl ⟨?_, ?_, fun _ => hn, ?_⟩
    · intro hm
      rcases h5 with ht | ht <;> rcases hm with hm | hm <;>
        (rw [ht] at hm; simp at hm)
    · intro hm
      rcases h5 with ht | ht <;> rcases hm with hm | hm | hm | hm <;>
        (rw [ht] at hm; simp at hm)
    · intro hb
      rcases h5 with ht | ht <;> (rw [ht] at hb; simp at hb)
  · refine iff_of_false (by simp) ?_
    rintro ⟨-, -, -, c4⟩
    exact c4 h7
  · refine iff_of_false (by simp) ?_
    rintro ⟨-, -, -, c4⟩
    exact c4 h7
  · refine iff_of_true rfl ⟨?_, ?_, ?_, ?_⟩
    · intro hm
      exact absurd hm h1
    · intro hm
      exact absurd hm h3
    · intro hm
      exact absurd hm h5
    · exact h7

theorem validateTerraformInner_eq_none_iff (b : HBlock) :
    validateTerraformInner b = none ↔
      (b.type = "terraform" → ∀ inner ∈ bodyBlocks b.body,
        inner.type = "backend" → inner.labels.length = 1) := by
  unfold validateTerraformInner
  by_cases ht : b.type = "terraform"
  · rw [if_pos ht, List.findSome?_eq_none_iff]
    constructor
    · intro h _ inner hin hbk
      have h2 := h inner hin
      by_cases hc : inner.type = "backend" ∧ inner.labels.length ≠ 1
      · rw [if_pos hc] at h2
        exact absurd h2 (by simp)
      · rcases not_and_or.mp hc with hA | hB
        · exact absurd hbk hA
        · exact not_ne_iff.mp hB
    · intro h inner hin
      rw [if_neg]
      rintro ⟨hbk, hlen⟩
      exact hlen (h ht inner hin hbk)
  · rw [if_neg ht]
    exact iff_of_true rfl (fun hterr => absurd hterr ht)

/-- A single block passes both checks of the validator's loop body exactly
when it satisfies the structural rule. -/
theorem labelRuleOk_iff (b : HBlock) :
    (validateTopBlock b = none ∧ validateTerraformInner b = none) ↔
      LabelRuleOk b := by
  rw [validateTopBlock_eq_none_iff, validateTerraformInner_eq_none_iff]
  unfold LabelRuleOk
  constructor
  · rintro ⟨⟨c1, c2, c3, c4⟩, c5⟩
    exact ⟨c1, c2, c3, c4, c5⟩
  · rintro ⟨c1, c2, c3, c4, c5⟩
    exact ⟨⟨c1, c2, c3, c4⟩, c5⟩

/-- Complete characterization of the validator: it accepts exactly the
files whose top-level blocks all satisfy the structural rule. -/
theorem validate_none_iff :
    ∀ f : List HBlock,
      validateRequiredBlockLabels f = none ↔ ∀ b ∈ f, LabelRuleOk b := by
  intro f
  induction f with
  | nil => simp [validateRequiredBlockLabels]
  | cons b rest ih =>
    cases htop : validateTopBlock b with
    | some e =>
      simp only [validateRequiredBlockLabels, htop]
      refine iff_of_false (by simp) ?_
      intro hall
      have hb := hall b (List.mem_cons_self _ _)
      have hnone : validateTopBlock b = none :=
        ((labelRuleOk_iff b).mpr hb).1
      rw [htop] at hnone
      exact absurd hnone (by simp)
    | none =>
      cases hinner : validateTerraformInner b with
      | some e =>
        simp only [validateRequiredBlockLabels, htop, hinner]
        refine iff_of_false (by simp) ?_
        intro hall
        have hb := hall b (List.mem_cons_self _ _)
        have hnone : validateTerraformInner b = none :=
          ((labelRuleOk_iff b).mpr hb).2
        rw [hinner] at hnone
        exact absurd hnone (by simp)
      | none =>
        simp only [validateRequiredBlockLabels, htop, hinner]
        rw [ih]
        constructor
        · intro hrest b' hb'
          rcases List.mem_cons.mp hb' with rfl | hmem
          · exact (labelRuleOk_iff b').mp ⟨htop, hinner⟩
          · exact hrest b' hmem
        · intro hall b' hb'
          exact hall b' (List.mem_cons_of_mem _ hb')

/-- A top-level `backend` block always makes validation fail. -/
theorem validate_ne_none_of_backend {f : List HBlock} {b : HBlock}
    (hb : b ∈ f) (ht : b.type = "backend") :
    validateRequiredBlockLabels f ≠ none := by
  intro h
  exact ((validate_none_iff f).mp h b hb).2.2.2.1 ht

theorem blockTypeOrder_eq_nine {t : BlockType} (h : blockTypeOrder t = 9) :
    t = BlockType.backend := by
  cases t <;> first | rfl | simp [blockTypeOrder] at h

/-- Dropping top-level backends does not touch the blocks of any other
rank. -/
theorem filter_key_parseBlocksL (f : List HBlock) (k : Nat × List String)
    (hk : k.1 ≠ 9) :
    (parseBlocksL f).filter (fun b => blockKey b = k) =
      f.filter (fun b => blockKey b = k) := by
  unfold parseBlocksL
  rw [List.filter_filter]
  apply List.filter_congr
  intro b _
  by_cases hb : blockKey b = k
  · have hnb : getBlockType b.type ≠ BlockType.backend := by
      intro he
      apply hk
      have h1 : blockTypeOrder (getBlockType b.type) = k.1 :=
        congrArg Prod.fst hb
      rw [he] at h1
      exact h1.symm
    simp [hb, hnb]
  · simp [hb]

/-- Reading `blockLE` as the spec does: rank strictly smaller, or equal
rank and labels lexicographically smaller or equal. -/
theorem blockLE_imp {a b : HBlock} (h : blockLE a b) :
    blockTypeOrder (getBlockType a.type) < blockTypeOrder (getBlockType b.type)
    ∨ (blockTypeOrder (getBlockType a.type) = blockTypeOrder (getBlockType b.type)
      ∧ (compareLabels a.labels b.labels = true ∨ a.labels = b.labels)) := by
  unfold blockLE at h
  simp only [blockLess] at h
  by_cases h0 : blockTypeOrder (getBlockType b.type) =
      blockTypeOrder (getBlockType a.type)
  · right
    refine ⟨h0.symm, ?_⟩
    rw [h0] at h
    simp only [ne_eq, not_true_eq_false, if_false, reduceIte] at h
    by_cases hlab : compareLabels a.labels b.labels = true
    · exact Or.inl hlab
    · exact Or.inr (compareLabels_eq_of_both_false _ _ (by simpa using hlab) h)
  · left
    rw [if_pos h0] at h
    simp only [decide_eq_false_iff_not, not_lt] at h
    omega

/-- C1: the top-level blocks of `SortHCLFile`'s output appear in
non-decreasing order of the fixed type rank, with equal ranks ordered by
the lexicographic label comparison (`compareLabels`, under which a strict
prefix sorts first), and — stability — for every sort key that is not the
(dropped) backend rank 9, the subsequence of output blocks with that key is
exactly the input's subsequence with that key, canonicalized in place. -/
theorem claim_c1_block_ordering (f : List HBlock) :
    (sortHCLFile f).Sorted (fun b1 b2 =>
      blockTypeOrder (getBlockType b1.type) < blockTypeOrder (getBlockType b2.type)
      ∨ (blockTypeOrder (getBlockType b1.type) = blockTypeOrder (getBlockType b2.type)
        ∧ (compareLabels b1.labels b2.labels = true ∨ b1.labels = b2.labels)))
    ∧ ∀ k : Nat × List String, k.1 ≠ 9 →
        (sortHCLFile f).filter (fun b => blockKey b = k) =
          (f.filter (fun b => blockKey b = k)).map canonBlock := by
  constructor
  · exact (sortHCLFile_sorted f).imp (fun hab => blockLE_imp hab)
  · intro k hk
    unfold sortHCLFile
    rw [filter_key_map_canonBlock, filter_key_sortBlocksL,
      filter_key_parseBlocksL f k hk]

theorem claim_c1_witness :
    ((sortHCLFile [HBlock.mk "resource" ["a", "b"] [],
        HBlock.mk "provider" ["aws"] []]).Sorted (fun b1 b2 =>
      blockTypeOrder (getBlockType b1.type) < blockTypeOrder (getBlockType b2.type)
      ∨ (blockTypeOrder (getBlockType b1.type) = blockTypeOrder (getBlockType b2.type)
        ∧ (compareLabels b1.labels b2.labels = true ∨ b1.labels = b2.labels))))
    ∧ (sortHCLFile [HBlock.mk "resource" ["a", "b"] [],
          HBlock.mk "provider" ["aws"] []]).filter
            (fun b => blockKey b = (6, ["a", "b"])) =
        ([HBlock.mk "resource" ["a", "b"] [],
          HBlock.mk "provider" ["aws"] []].filter
            (fun b => blockKey b = (6, ["a", "b"]))).map canonBlock :=
  ⟨(claim_c1_block_ordering _).1,
    (claim_c1_block_ordering _).2 (6, ["a", "b"]) (by decide)⟩

/-- C2: in `SortHCLFile`'s output, every block at every nesting depth has
its attributes laid out with `for_each` (when present) first and all other
attribute names in strictly ascending string order (`String`'s
lexicographic order on code points, matching Go's byte order on UTF-8). -/
theorem claim_c2_attr_order (f : List HBlock) :
    ∀ b ∈ sortHCLFile f, DeepAttrsOk b := by
  intro b hb
  rcases List.mem_map.mp hb with ⟨x, _, rfl⟩
  exact deepAttrsOk_canonBlock x

theorem claim_c2_witness :
    DeepAttrsOk (canonBlock (HBlock.mk "resource" ["aws", "x"]
      [BodyItem.attr "zebra" "1", BodyItem.attr "for_each" "var.m",
        BodyItem.attr "alpha" "2"])) := by
  apply claim_c2_attr_order
    [HBlock.mk "resource" ["aws", "x"]
      [BodyItem.attr "zebra" "1", BodyItem.attr "for_each" "var.m",
        BodyItem.attr "alpha" "2"]]
  have h : sortHCLFile [HBlock.mk "resource" ["aws", "x"]
      [BodyItem.attr "zebra" "1", BodyItem.attr "for_each" "var.m",
        BodyItem.attr "alpha" "2"]] =
      [canonBlock (HBlock.mk "resource" ["aws", "x"]
        [BodyItem.attr "zebra" "1", BodyItem.attr "for_each" "var.m",
          BodyItem.attr "alpha" "2"])] := rfl
  rw [h]
  exact List.mem_singleton.mpr rfl

/-- C3: canonicalization is idempotent at the document-tree level (the
round trip through serialization and re-parsing is the identity on the
tree): applying `SortHCLFile` to its own output changes neither the tree
nor its serialization. -/
theorem claim_c3_idempotent (f : List HBlock) :
    sortHCLFile (sortHCLFile f) = sortHCLFile f ∧
    serializeFile (sortHCLFile (sortHCLFile f)) = serializeFile (sortHCLFile f) := by
  have h := sortHCLFile_idem f
  exact ⟨h, by rw [h]⟩

/-- C4, counterexample: `SortHCLFile` silently drops a top-level `backend`
block (`parseBlocks` skips it), so on the document consisting of a single
`backend "s3"` block the output is empty and the content multiset is not
preserved. -/
theorem claim_c4_counterexample :
    ¬ CPerm [HBlock.mk "backend" ["s3"] []]
        (sortHCLFile [HBlock.mk "backend" ["s3"] []]) := by
  intro h
  have hlen := cPerm_length h
  have he : sortHCLFile [HBlock.mk "backend" ["s3"] []] = [] := rfl
  rw [he] at hlen
  simp at hlen

/-- C4, amended: for every document with no top-level `backend` block and
unique attribute names per block (the parser invariant the spec states),
the output of `SortHCLFile` has the same multiset of (type, labels,
attribute name to expression text, recursively for children) as the input —
only the order changes. -/
theorem claim_c4_content_preserved (f : List HBlock)
    (h1 : ∀ b ∈ f, getBlockType b.type ≠ BlockType.backend)
    (h2 : ∀ b ∈ f, WFBlock b) :
    CPerm f (sortHCLFile f) := by
  unfold sortHCLFile
  rw [parseBlocksL_eq_self h1]
  refine CPerm.mk _ (sortBlocksL f) _ (sortBlocksL_perm f).symm ?_
  apply cAll_map
  intro x hx
  exact cEquiv_canonBlock x (h2 x (mem_sortBlocksL.mp hx))

theorem claim_c4_witness :
    CPerm [HBlock.mk "resource" ["a", "b"] [BodyItem.attr "x" "1"]]
      (sortHCLFile [HBlock.mk "resource" ["a", "b"] [BodyItem.attr "x" "1"]]) := by
  apply claim_c4_content_preserved
  · intro b hb
    rcases List.mem_singleton.mp hb with rfl
    decide
  · intro b hb
    rcases List.mem_singleton.mp hb with rfl
    refine WFBlock.mk _ _ _ (by simp [bodyAttrs]) ?_
    intro x hx
    simp [bodyBlocks] at hx

/-- C5: a top-level `backend` block always makes
`ValidateRequiredBlockLabels` fail, whatever its label count; and a file
whose only content is a `backend` block with exactly one label nested in a
label-less `terraform` block is accepted. -/
theorem claim_c5_backend_validation :
    (∀ (f : List HBlock) (b : HBlock), b ∈ f → b.type = "backend" →
      validateRequiredBlockLabels f ≠ none) ∧
    (∀ (lbl : String) (bkBody : List BodyItem),
      validateRequiredBlockLabels
        [HBlock.mk "terraform" []
          [BodyItem.block (HBlock.mk "backend" [lbl] bkBody)]] = none) := by
  constructor
  · intro f b hb ht
    exact validate_ne_none_of_backend hb ht
  · intro lbl bkBody
    rw [validate_none_iff]
    intro b hb
    rcases List.mem_singleton.mp hb with rfl
    refine ⟨?_, ?_, ?_, ?_, ?_⟩
    · intro hm
      rcases hm with hm | hm <;> simp [HBlock.type] at hm
    · intro hm
      rcases hm with hm | hm | hm | hm <;> simp [HBlock.type] at hm
    · intro _
      rfl
    · simp [HBlock.type]
    · intro _ inner hin hbk
      rcases List.mem_singleton.mp hin with rfl
      rfl

theorem claim_c5_witness :
    validateRequiredBlockLabels [HBlock.mk "backend" [] []] ≠ none ∧
    validateRequiredBlockLabels [HBlock.mk "backend" ["s3"] []] ≠ none ∧
    validateRequiredBlockLabels
      [HBlock.mk "terraform" []
        [BodyItem.block (HBlock.mk "backend" ["s3"] [])]] = none :=
  ⟨claim_c5_backend_validation.1 _ _ (List.mem_singleton.mpr rfl) rfl,
    claim_c5_backend_validation.1 _ _ (List.mem_singleton.mpr rfl) rfl,
    claim_c5_backend_validation.2 "s3" []⟩

/-- C6, counterexample: the validator never descends into nested bodies: a
file whose only violation is a nested `resource` block with zero labels
(inside a well-formed `module` block) passes validation, contradicting the
claim that label-count rules are enforced at any nesting depth. -/
theorem claim_c6_counterexample :
    validateRequiredBlockLabels
        [HBlock.mk "module" ["m"]
          [BodyItem.block (HBlock.mk "resource" [] [])]] = none ∧
    HBlock.mk "resource" [] [] ∈
      bodyBlocks (HBlock.mk "module" ["m"]
        [BodyItem.block (HBlock.mk "resource" [] [])]).body ∧
    (HBlock.mk "resource" [] []).labels.length ≠ 2 :=
  ⟨rfl, List.mem_singleton.mpr rfl, by decide⟩

/-- C6, amended: the validator checks label-count rules on top-level blocks
only (plus `backend` blocks directly inside a top-level `terraform` block):
it returns no error exactly when every top-level block satisfies its type's
label rule, no top-level `backend` exists, and every `backend` directly
inside a top-level `terraform` block has exactly one label; nested blocks
are otherwise never inspected. -/
theorem claim_c6_validator_characterization (f : List HBlock) :
    validateRequiredBlockLabels f = none ↔ ∀ b ∈ f, LabelRuleOk b :=
  validate_none_iff f

theorem claim_c6_witness :
    validateRequiredBlockLabels [HBlock.mk "provider" ["aws"] []] = none :=
  (claim_c6_validator_characterization _).mpr (by
    intro b hb
    rcases List.mem_singleton.mp hb with rfl
    refine ⟨?_, ?_, ?_, ?_, ?_⟩
    · intro hm
      rcases hm with hm | hm <;> simp [HBlock.type] at hm
    · intro _
      rfl
    · intro hm
      rcases hm with hm | hm <;> simp [HBlock.type] at hm
    · simp [HBlock.type]
    · intro hm
      simp [HBlock.type] at hm)

/-- C7: the format delegate returns empty text for empty input in every
environment (so without invoking the external formatter); when the
`terraform` binary is unavailable it returns the original content with a
`TerraformNotFoundError`, which the classifier recognizes both bare and
once-wrapped in a `FormattingError`; and when the binary is available,
every failure it can return — temp-file failures and `terraform fmt`
rejecting the text included — is classified as not-a-not-found error. -/
theorem claim_c7_format_delegate (env : FmtEnv) (content : String) :
    applyTerraformFmt env "" = ("", none) ∧
    (env.terraformAvailable = false → content ≠ "" →
      applyTerraformFmt env content =
        (content, some (GoErr.terraformNotFound env.lookPathErr)) ∧
      isTerraformNotFoundError (GoErr.terraformNotFound env.lookPathErr) = true) ∧
    (∀ op p c m, isTerraformNotFoundError
      (GoErr.formattingError op p c (GoErr.terraformNotFound m)) = true) ∧
    (env.terraformAvailable = true →
      ∀ s e, applyTerraformFmt env content = (s, some e) →
        isTerraformNotFoundError e = false) := by
  refine ⟨rfl, ?_, fun _ _ _ _ => rfl, ?_⟩
  · intro hna hne
    refine ⟨?_, rfl⟩
    unfold applyTerraformFmt checkTerraformAvailable
    rw [if_neg hne, hna]
    rfl
  · intro hav s e heq
    unfold applyTerraformFmt checkTerraformAvailable at heq
    by_cases hne : content = ""
    · rw [if_pos hne] at heq
      simp at heq
    · rw [if_neg hne, hav] at heq
      simp only [if_true, reduceIte] at heq
      cases h1 : env.createTempErr with
      | some m =>
        rw [h1] at heq
        have h2 := congrArg Prod.snd heq
        simp only at h2
        rw [← Option.some.inj h2]
        rfl
      | none =>
        rw [h1] at heq
        cases h2 : env.writeErr with
        | some m =>
          rw [h2] at heq
          have h3 := congrArg Prod.snd heq
          simp only at h3
          rw [← Option.some.inj h3]
          rfl
        | none =>
          rw [h2] at heq
          cases h3 : env.fmtRunErr with
          | some m =>
            rw [h3] at heq
            have h4 := congrArg Prod.snd heq
            simp only at h4
            rw [← Option.some.inj h4]
            rfl
          | none =>
            rw [h3] at heq
            cases h4 : env.readErr with
            | some m =>
              rw [h4] at heq
              have h5 := congrArg Prod.snd heq
              simp only at h5
              rw [← Option.some.inj h5]
              rfl
            | none =>
              rw [h4] at heq
              have h5 := congrArg Prod.snd heq
              simp at h5

theorem claim_c7_witness :
    applyTerraformFmt ⟨false, "exec: not found", none, none, none, none, id⟩ "" =
      ("", none) ∧
    applyTerraformFmt ⟨false, "exec: not found", none, none, none, none, id⟩ "a b" =
      ("a b", some (GoErr.terraformNotFound "exec: not found")) ∧
    isTerraformNotFoundError (GoErr.terraformNotFound "exec: not found") = true ∧
    ∀ s e, applyTerraformFmt ⟨true, "", none, none, some "syntax error", none, id⟩
        "a b" = (s, some e) → isTerraformNotFoundError e = false := by
  refine ⟨(claim_c7_format_delegate _ "a b").1, ?_, ?_, ?_⟩
  · exact ((claim_c7_format_delegate
      ⟨false, "exec: not found", none, none, none, none, id⟩ "a b").2.1 rfl
        (by decide)).1
  · exact ((claim_c7_format_delegate
      ⟨false, "exec: not found", none, none, none, none, id⟩ "a b").2.1 rfl
        (by decide)).2
  · exact (claim_c7_format_delegate
      ⟨true, "", none, none, some "syntax error", none, id⟩ "a b").2.2.2 rfl

/-- C8: a nil file sorts to a fresh empty file, and `SortAndFormatHCLFile`
on a nil or empty file returns the empty string with no error, in every
environment (in particular without needing the external formatter). -/
theorem claim_c8_empty_input (env : FmtEnv) :
    sortHCLFileOpt none = [] ∧
    sortAndFormatHCLFile env none = ("", none) ∧
    sortAndFormatHCLFile env (some []) = ("", none) :=
  ⟨rfl, rfl, rfl⟩

/-- C9: in `SortHCLFile`'s output, within every block at every nesting
depth, the body consists of all attributes first and all nested blocks
after them, regardless of how they were interleaved in the input. -/
theorem claim_c9_attrs_before_blocks (f : List HBlock) :
    ∀ b ∈ sortHCLFile f, DeepSplitOk b := by
  intro b hb
  rcases List.mem_map.mp hb with ⟨x, _, rfl⟩
  exact deepSplitOk_canonBlock x

theorem claim_c9_witness :
    DeepSplitOk (canonBlock (HBlock.mk "resource" ["a", "b"]
      [BodyItem.block (HBlock.mk "lifecycle" [] []),
        BodyItem.attr "ami" "x"])) := by
  apply claim_c9_attrs_before_blocks
    [HBlock.mk "resource" ["a", "b"]
      [BodyItem.block (HBlock.mk "lifecycle" [] []), BodyItem.attr "ami" "x"]]
  have h : sortHCLFile [HBlock.mk "resource" ["a", "b"]
      [BodyItem.block (HBlock.mk "lifecycle" [] []), BodyItem.attr "ami" "x"]] =
      [canonBlock (HBlock.mk "resource" ["a", "b"]
        [BodyItem.block (HBlock.mk "lifecycle" [] []),
          BodyItem.attr "ami" "x"])] := rfl
  rw [h]
  exact List.mem_singleton.mpr rfl

/-- C10: `SortHCLFile` is deterministic in spite of Go's unordered map
iteration: whatever order each block's attribute names are enumerated in
(any permutation of its key set), the output tree — and hence its
serialized bytes — is the one canonical result. -/
theorem claim_c10_deterministic (choice : HBlock → List String)
    (f : List HBlock)
    (hchoice : ∀ b : HBlock, choice b ~ keysOf (bodyAttrs b.body)) :
    sortHCLFileWith choice f = sortHCLFile f ∧
    serializeFile (sortHCLFileWith choice f) = serializeFile (sortHCLFile f) := by
  have h := sortHCLFileWith_eq hchoice f
  exact ⟨h, by rw [h]⟩

theorem claim_c10_witness :
    sortHCLFileWith (fun b => (keysOf (bodyAttrs b.body)).reverse)
        [HBlock.mk "resource" ["a", "b"]
          [BodyItem.attr "zebra" "1", BodyItem.attr "alpha" "2"]] =
      sortHCLFile
        [HBlock.mk "resource" ["a", "b"]
          [BodyItem.attr "zebra" "1", BodyItem.attr "alpha" "2"]] :=
  (claim_c10_deterministic _ _ (fun _ => List.reverse_perm _)).1

end SortTF
